import Mathlib

/-!
# Verification of the Page-Replacement-Algorithm repository

Shallow embedding of `src/PageReplacement.h`.  Pages are modelled as `Int`
(the C++ code stores `int` page ids), `std::vector<int>` / `std::deque<int>`
as `List Int` (front of the deque = head of the list, `push_back` = append),
`num_pages_` / `num_frames_` as `Nat` (the C++ compares container sizes with
`(size_t) num_pages_` / `(size_t) num_frames_`; all scenarios considered keep
these non-negative, where the cast is the identity).  Operations whose C++
source can perform an out-of-range access return `Option`, with `none`
marking the access that C++ leaves undefined.
-/

namespace AbstractPageReplacement

/-- `FindInContainer` (PageReplacement.h, lines 121-136): linear scan for
`needle` through the container. -/
def FindInContainer (needle : Int) : List Int → Bool
  | [] => false
  | x :: xs => if x = needle then true else FindInContainer needle xs

/-- One backward pass of `CleanRefString` (PageReplacement.h, lines 100-111).
The C++ loop starts with the iterator `i = ref_string.end()` and runs while
`i != ref_string.begin()`, dereferencing `*i` and `*(i - 1)` in the body and
erasing position `i` when they compare equal, then decrementing `i`.
The parameter of `cleanLoop` is the index of the iterator `i` (`end()` is
index `v.length`); an out-of-range read yields `none`. -/
def cleanLoop (v : List Int) : Nat → Option (List Int)
  | 0 => some v
  | j + 1 =>
    match v[j + 1]?, v[j]? with
    | some a, some b =>
      if a = b then cleanLoop (v.eraseIdx (j + 1)) j else cleanLoop v j
    | _, _ => none

/-- `CleanRefString` (PageReplacement.h, lines 100-111): the backward
traversal started at `end()`, i.e. at index `v.length`. -/
def CleanRefString (v : List Int) : Option (List Int) :=
  cleanLoop v v.length

/-- C++ `a % b` for a non-negative dividend `a` and `int` divisor `b`:
truncated division gives `a % b = a mod |b|`; division by zero is undefined
(`none`). -/
def cppRem (a : Nat) (b : Int) : Option Int :=
  if b = 0 then none else some ((a % b.natAbs : Nat) : Int)

/-- The redraw loop of `GenerateRefString` (PageReplacement.h, lines 75-87):
draw `rand() % upper_bound`; while the draw equals the previous element,
redraw.  `rands` is the stream of `rand()` results and `ctr` the index of the
next draw; `fuel` bounds the number of draws, `none` marking a loop that has
not terminated within the bound (or an undefined `% 0`). -/
def drawNe (rands : Nat → Nat) (ub : Int) (prev : Int) (ctr : Nat) :
    Nat → Option (Int × Nat)
  | 0 => none
  | fuel + 1 =>
    (cppRem (rands ctr) ub).bind fun v =>
      if v = prev then drawNe rands ub prev (ctr + 1) fuel
      else some (v, ctr + 1)

/-- The outer `for` loop of `GenerateRefString` filling positions `1..size-1`,
each via the redraw loop seeded with the previous element. -/
def genLoop (rands : Nat → Nat) (ub : Int) (fuel : Nat) (prev : Int)
    (ctr : Nat) : Nat → Option (List Int)
  | 0 => some []
  | n + 1 =>
    (drawNe rands ub prev ctr fuel).bind fun vc =>
      (genLoop rands ub fuel vc.1 vc.2 n).map fun rest => vc.1 :: rest

/-- `GenerateRefString` (PageReplacement.h, lines 58-92): returns immediately
for `size = 0`; otherwise draws element 0 unconditionally and the remaining
`size - 1` elements through the redraw loop. -/
def GenerateRefString (rands : Nat → Nat) (fuel : Nat) (size : Nat)
    (ub : Int) : Option (List Int) :=
  if size = 0 then some []
  else
    (cppRem (rands 0) ub).bind fun v0 =>
      (genLoop rands ub fuel v0 1 (size - 1)).map fun rest => v0 :: rest

end AbstractPageReplacement

namespace FIFOPageReplacement

open AbstractPageReplacement

/-- One iteration of `FIFOPageReplacement::CalculatePageFaults`
(PageReplacement.h, lines 185-206): on a miss, pop the front when the deque
holds `num_frames_` pages, then push the request onto the back and count a
fault. -/
def step (numFrames : Nat) (st : List Int × Nat) (r : Int) : List Int × Nat :=
  if FindInContainer r st.1 then st
  else ((if st.1.length = numFrames then st.1.tail else st.1) ++ [r], st.2 + 1)

/-- `FIFOPageReplacement::CalculatePageFaults` (PageReplacement.h,
lines 174-210). -/
def CalculatePageFaults (refString : List Int) (numFrames : Nat) : Nat :=
  (refString.foldl (step numFrames) ([], 0)).2

end FIFOPageReplacement

namespace LRUPageReplacement

open AbstractPageReplacement

/-- The hit branch of `LRUPageReplacement::CalculatePageFaults`
(PageReplacement.h, lines 272-286): iterate `j` over the deque; whenever
`*j` equals the requested page, push it onto the back and erase position `j`
(the C++ keeps using `j` after the erase; a vector-style erase leaves `j` at
the same index, which then advances).  The deque length is invariant in this
loop, so `fuel = cur.length` iterations reproduce it exactly. -/
def relocate (p : Int) (cur : List Int) (j : Nat) : Nat → List Int
  | 0 => cur
  | fuel + 1 =>
    match cur[j]? with
    | some x =>
      if x = p then relocate p ((cur ++ [x]).eraseIdx j) (j + 1) fuel
      else relocate p cur (j + 1) fuel
    | none => cur

/-- One iteration of `LRUPageReplacement::CalculatePageFaults`
(PageReplacement.h, lines 245-287): miss handled as in FIFO, hit runs the
relocation loop. -/
def step (numFrames : Nat) (st : List Int × Nat) (r : Int) : List Int × Nat :=
  if FindInContainer r st.1 then (relocate r st.1 0 st.1.length, st.2)
  else ((if st.1.length = numFrames then st.1.tail else st.1) ++ [r], st.2 + 1)

/-- `LRUPageReplacement::CalculatePageFaults` (PageReplacement.h,
lines 234-291). -/
def CalculatePageFaults (refString : List Int) (numFrames : Nat) : Nat :=
  (refString.foldl (step numFrames) ([], 0)).2

end LRUPageReplacement

namespace OPTPageReplacement

open AbstractPageReplacement

/-- The `uniqueMemoryStack` construction (PageReplacement.h, lines 332-349):
scan the remaining reference string (starting at the current request) and
append each value that is currently in memory and not yet on the stack. -/
def buildStack (future cur : List Int) : List Int :=
  future.foldl
    (fun acc x =>
      if FindInContainer x cur then
        if FindInContainer x acc then acc else acc ++ [x]
      else acc)
    []

/-- The else-branch eviction scan (PageReplacement.h, lines 374-385): erase
the first resident that is not on the stack, then break; nothing is erased
when every resident is on the stack. -/
def eraseFirstNotIn (cur stack : List Int) : List Int :=
  match cur with
  | [] => []
  | x :: xs => if FindInContainer x stack then x :: eraseFirstNotIn xs stack else xs

/-- One iteration of `OPTPageReplacement::CalculatePageFaults`
(PageReplacement.h, lines 310-404).  Branch 1 (lines 315-390) fires when the
resident count equals `num_pages_` and the request misses: it evicts the last
stack entry when the stack holds `num_pages_` values (lines 355-366, erasing
the first resident equal to `*uniqueMemoryStack.rbegin()`), otherwise the
first resident not on the stack, then pushes the request.  Branch 2
(lines 398-403) fires when the resident count differs from `num_frames_` and
the request misses: push and count, with no eviction.  Otherwise nothing
happens. -/
def step (numPages numFrames : Nat) (cur : List Int) (faults : Nat) (r : Int)
    (future : List Int) : List Int × Nat :=
  if cur.length = numPages ∧ ¬ FindInContainer r cur then
    let stack := buildStack future cur
    let cur2 :=
      if stack.length = numPages then
        match stack.getLast? with
        | some v => cur.erase v
        | none => cur
      else eraseFirstNotIn cur stack
    (cur2 ++ [r], faults + 1)
  else if cur.length ≠ numFrames ∧ ¬ FindInContainer r cur then
    (cur ++ [r], faults + 1)
  else (cur, faults)

/-- The main loop of `OPTPageReplacement::CalculatePageFaults`: at each
position the lookahead covers the current request and everything after it. -/
def optLoop (numPages numFrames : Nat) :
    List Int → List Int → Nat → List Int × Nat
  | cur, [], faults => (cur, faults)
  | cur, r :: rest, faults =>
    let st := step numPages numFrames cur faults r (r :: rest)
    optLoop numPages numFrames st.1 rest st.2

/-- `OPTPageReplacement::CalculatePageFaults` (PageReplacement.h,
lines 301-407). -/
def CalculatePageFaults (refString : List Int) (numPages numFrames : Nat) :
    Nat :=
  (optLoop numPages numFrames [] refString 0).2

end OPTPageReplacement

/-! ## Helper lemmas -/

namespace AbstractPageReplacement

/-- With `upper_bound = 1` every draw is `0`, so a redraw loop seeded with a
previous element `0` never terminates: it fails for every fuel bound. -/
lemma drawNe_ub_one (rands : Nat → Nat) :
    ∀ fuel ctr, drawNe rands 1 0 ctr fuel = none := by
  intro fuel
  induction fuel with
  | zero => intro ctr; rfl
  | succ n ih => intro ctr; simp [drawNe, cppRem, ih]

/-- `FindInContainer` decides membership. -/
lemma findInContainer_iff (n : Int) (l : List Int) :
    FindInContainer n l = true ↔ n ∈ l := by
  induction l with
  | nil => simp [FindInContainer]
  | cons x xs ih =>
    by_cases hx : x = n
    · subst hx
      simp [FindInContainer]
    · have hx' : ¬ n = x := fun h => hx h.symm
      simp [FindInContainer, hx, hx', ih]

lemma cppRem_spec {a : Nat} {b : Int} {v : Int} (h : cppRem a b = some v) :
    0 ≤ v ∧ (0 < b → v < b) := by
  unfold cppRem at h
  split at h
  · exact absurd h (by simp)
  · next hb =>
    obtain rfl : ((a % b.natAbs : Nat) : Int) = v := by simpa using h
    refine ⟨Int.ofNat_nonneg _, fun hb0 => ?_⟩
    have hlt : a % b.natAbs < b.natAbs := Nat.mod_lt _ (Int.natAbs_pos.mpr hb)
    calc ((a % b.natAbs : Nat) : Int) < (b.natAbs : Int) := by exact_mod_cast hlt
      _ = b := Int.natAbs_of_nonneg hb0.le

lemma drawNe_spec {rands : Nat → Nat} {ub prev : Int} :
    ∀ {fuel ctr ctr' : Nat} {v : Int},
      drawNe rands ub prev ctr fuel = some (v, ctr') →
      v ≠ prev ∧ 0 ≤ v ∧ (0 < ub → v < ub) := by
  intro fuel
  induction fuel with
  | zero => intro ctr ctr' v h; exact absurd h (by simp [drawNe])
  | succ n ih =>
    intro ctr ctr' v h
    unfold drawNe at h
    cases hc : cppRem (rands ctr) ub with
    | none => rw [hc] at h; exact absurd h (by simp)
    | some w =>
      rw [hc] at h
      simp only [Option.some_bind] at h
      by_cases hw : w = prev
      · rw [if_pos hw] at h; exact ih h
      · rw [if_neg hw] at h
        obtain ⟨rfl, rfl⟩ : w = v ∧ ctr + 1 = ctr' := by
          constructor <;> [exact congrArg Prod.fst (Option.some_injective _ h);
            exact congrArg Prod.snd (Option.some_injective _ h)]
        exact ⟨hw, cppRem_spec hc⟩

lemma genLoop_spec {rands : Nat → Nat} {ub : Int} {fuel : Nat} :
    ∀ {n ctr : Nat} {prev : Int} {l : List Int},
      genLoop rands ub fuel prev ctr n = some l →
      l.length = n ∧ List.Chain (· ≠ ·) prev l ∧
        ∀ x ∈ l, 0 ≤ x ∧ (0 < ub → x < ub) := by
  intro n
  induction n with
  | zero =>
    intro ctr prev l h
    obtain rfl : ([] : List Int) = l := by simpa [genLoop] using h
    exact ⟨rfl, List.Chain.nil, by simp⟩
  | succ m ih =>
    intro ctr prev l h
    unfold genLoop at h
    cases hd : drawNe rands ub prev ctr fuel with
    | none => rw [hd] at h; exact absurd h (by simp)
    | some vc =>
      rw [hd] at h
      simp only [Option.some_bind, Option.map_eq_some'] at h
      obtain ⟨rest, hrest, rfl⟩ := h
      obtain ⟨hne, hnn, hub⟩ := drawNe_spec hd
      obtain ⟨hlen, hchain, hmem⟩ := ih hrest
      refine ⟨by simp [hlen], List.Chain.cons hne.symm hchain, ?_⟩
      intro x hx
      rcases List.mem_cons.mp hx with rfl | hx
      · exact ⟨hnn, hub⟩
      · exact hmem x hx

end AbstractPageReplacement

/-! ## Claims -/

open AbstractPageReplacement

/-- C10 (counterexample): the sanitizer's error branch is reachable: on the
input `[0]` the first access of the backward traversal, at the end position,
is out of range and `CleanRefString` returns `none`. -/
theorem claim_C10_counterexample : CleanRefString [0] = none := rfl

/-- C10 (amended): the backward traversal performs no access at all on the
empty input, and on every non-empty input its very first access — at the end
position — is out of the bounds of the sequence, so the error branch of the
sanitizer is reached exactly on the non-empty inputs. -/
theorem claim_C10_amended (v : List Int) :
    (v = [] → CleanRefString v = some v) ∧
    (v ≠ [] → CleanRefString v = none) := by
  constructor
  · rintro rfl; rfl
  · intro hv
    obtain ⟨n, hn⟩ : ∃ n, v.length = n + 1 := by
      cases v with
      | nil => exact absurd rfl hv
      | cons a l => exact ⟨l.length, rfl⟩
    unfold CleanRefString
    rw [hn]
    unfold cleanLoop
    rw [List.getElem?_eq_none (by omega)]

/-- C10 (witness for the amended theorem). -/
theorem claim_C10_witness :
    CleanRefString [] = some [] ∧ CleanRefString [3] = none :=
  ⟨(claim_C10_amended []).1 rfl, (claim_C10_amended [3]).2 (by decide)⟩

/-- C4 (code bug, evaluation at the failing input): `CleanRefString [1, 1]`
dereferences the past-the-end iterator on its first loop iteration instead of
producing the deduplicated subsequence `[1]` promised by its documentation. -/
theorem claim_C4_eval : CleanRefString [1, 1] = none := rfl

/-- C5 (code bug, evaluation at the failing input): `CleanRefString [1, 2]`
produces no output sequence at all (out-of-range access), so there is no
sanitized sequence to which the sanitizer could be applied a second time. -/
theorem claim_C5_eval : CleanRefString [1, 2] = none := rfl

/-- C6 (code bug, evaluation at the failing inputs): `GenerateRefString` has
no `InvalidRange` guard.  With `upper_bound = 0` it evaluates `rand() % 0`
(undefined, modelled `none`); with `upper_bound = 1` and `size = 2` the
redraw loop never terminates (it fails for every fuel bound and every random
stream); with `upper_bound = -1` and `size = 1` it silently returns `[0]`
instead of reporting an error. -/
theorem claim_C6_eval :
    (∀ rands fuel, GenerateRefString rands fuel 1 0 = none) ∧
    (∀ rands fuel, GenerateRefString rands fuel 2 1 = none) ∧
    (∀ rands fuel, GenerateRefString rands fuel 1 (-1) = some [0]) := by
  refine ⟨fun rands fuel => ?_, fun rands fuel => ?_, fun rands fuel => ?_⟩
  · simp [GenerateRefString, cppRem]
  · simp [GenerateRefString, genLoop, cppRem, drawNe_ub_one]
  · simp [GenerateRefString, genLoop, cppRem]

/-- C8: the empty reference string yields 0 page faults under FIFO, LRU and
OPT, for every `num_pages` and `num_frames`. -/
theorem claim_C8 (numPages numFrames : Nat) :
    FIFOPageReplacement.CalculatePageFaults [] numFrames = 0 ∧
    LRUPageReplacement.CalculatePageFaults [] numFrames = 0 ∧
    OPTPageReplacement.CalculatePageFaults [] numPages numFrames = 0 :=
  ⟨rfl, rfl, rfl⟩

/-- C2 (code bug, evaluation at the failing input): replaying `[0, 1, 2]`
with `num_pages = 9` and `num_frames = 2` under OPT, the third reference
misses while the resident set holds `num_frames` pages, yet no resident is
evicted and the requested page is not inserted: the run ends with resident
set `[0, 1]` and only 2 faults, because OPT's eviction branch compares the
resident count against `num_pages_` instead of `num_frames_`. -/
theorem claim_C2_eval :
    OPTPageReplacement.optLoop 9 2 [] [0, 1, 2] 0 = ([0, 1], 2) := rfl

/-- C1 (counterexample): with `num_pages = 1` and `num_frames = 3` OPT
replays `[1,2,3,1,2,3]` with 6 faults while FIFO replays it with 3, so OPT's
fault count is not bounded by FIFO's when the reference string uses page ids
outside `[0, num_pages)`. -/
theorem claim_C1_counterexample :
    ¬ (OPTPageReplacement.CalculatePageFaults [1, 2, 3, 1, 2, 3] 1 3 ≤
        FIFOPageReplacement.CalculatePageFaults [1, 2, 3, 1, 2, 3] 3) := by
  decide

/-- C7: `GenerateRefString 0 k` is the empty sequence for every `k`
(the guard returns before any draw), and whenever the generator returns a
sequence for `size > 0` and `upper_bound > 1` (the redraw loop terminated
within the fuel bound for the given random stream), that sequence has length
`size`, all elements in `[0, upper_bound)`, and no two adjacent elements
equal. -/
theorem claim_C7 :
    (∀ rands fuel (k : Int), GenerateRefString rands fuel 0 k = some []) ∧
    (∀ rands fuel size (ub : Int) (l : List Int), 0 < size → 1 < ub →
      GenerateRefString rands fuel size ub = some l →
      l.length = size ∧ (∀ x ∈ l, 0 ≤ x ∧ x < ub) ∧ List.Chain' (· ≠ ·) l) := by
  constructor
  · intro rands fuel k; rfl
  · intro rands fuel size ub l hsize hub h
    unfold GenerateRefString at h
    rw [if_neg (by omega)] at h
    cases hc : cppRem (rands 0) ub with
    | none => rw [hc] at h; exact absurd h (by simp)
    | some v0 =>
      rw [hc] at h
      simp only [Option.some_bind, Option.map_eq_some'] at h
      obtain ⟨rest, hrest, rfl⟩ := h
      obtain ⟨hlen, hchain, hmem⟩ := genLoop_spec hrest
      obtain ⟨h0, hlt⟩ := cppRem_spec hc
      have hub0 : (0:Int) < ub := by omega
      refine ⟨by simp [hlen]; omega, ?_, hchain⟩
      intro x hx
      rcases List.mem_cons.mp hx with rfl | hx
      · exact ⟨h0, hlt hub0⟩
      · obtain ⟨hx0, hxlt⟩ := hmem x hx
        exact ⟨hx0, hxlt hub0⟩

/-- C7 (witness): the stream `0,1,2,...` with `size = 3`, `upper_bound = 10`
generates `[0, 1, 2]`. -/
theorem claim_C7_witness :
    ([0, 1, 2] : List Int).length = 3 ∧
    (∀ x ∈ ([0, 1, 2] : List Int), 0 ≤ x ∧ x < 10) ∧
    List.Chain' (· ≠ ·) ([0, 1, 2] : List Int) :=
  claim_C7.2 (fun n => n) 1 3 10 [0, 1, 2] (by decide) (by decide) (by decide)

namespace LRUPageReplacement

lemma relocate_of_le {p : Int} {cur : List Int} {j : Nat}
    (h : cur.length ≤ j) : ∀ fuel, relocate p cur j fuel = cur := by
  intro fuel
  cases fuel with
  | zero => rfl
  | succ n =>
    unfold relocate
    rw [List.getElem?_eq_none h]

lemma relocate_perm (p : Int) :
    ∀ (fuel : Nat) (cur : List Int) (j : Nat), (relocate p cur j fuel).Perm cur := by
  intro fuel
  induction fuel with
  | zero => intro cur j; exact List.Perm.refl cur
  | succ n ih =>
    intro cur j
    unfold relocate
    split
    · next x hj =>
      have hjlt : j < cur.length := by
        by_contra hge
        rw [List.getElem?_eq_none (by omega)] at hj
        exact Option.noConfusion hj
      have hx' : cur[j] = x := by
        have h2 := List.getElem?_eq_getElem hjlt
        rw [hj] at h2
        exact Option.some_injective _ h2.symm
      split
      · next hx =>
        refine (ih _ (j + 1)).trans ?_
        have e1 : (cur ++ [x]).eraseIdx j =
            cur.take j ++ (cur.drop (j + 1) ++ [x]) := by
          rw [List.eraseIdx_eq_take_drop_succ, List.take_append_of_le_length hjlt.le,
            List.drop_append_of_le_length (by omega)]
        rw [e1]
        have h5 : (cur.drop (j + 1) ++ [x]).Perm (cur.drop j) := by
          rw [List.drop_eq_getElem_cons hjlt, hx']
          exact List.perm_append_singleton _ _
        have h6 := h5.append_left (cur.take j)
        rwa [List.take_append_drop] at h6
      · next hx => exact ih cur (j + 1)
    · exact List.Perm.refl cur

end LRUPageReplacement

namespace LRUPageReplacement

lemma relocate_of_not_mem {p : Int} :
    ∀ (fuel : Nat) (cur : List Int) (j : Nat), p ∉ cur.drop j →
      relocate p cur j fuel = cur := by
  intro fuel
  induction fuel with
  | zero => intro cur j _; rfl
  | succ n ih =>
    intro cur j hp
    unfold relocate
    split
    · next x hj =>
      have hjlt : j < cur.length := by
        by_contra hge
        rw [List.getElem?_eq_none (by omega)] at hj
        exact Option.noConfusion hj
      have hx' : cur[j] = x := by
        have h2 := List.getElem?_eq_getElem hjlt
        rw [hj] at h2
        exact Option.some_injective _ h2.symm
      have hdj : cur.drop j = x :: cur.drop (j + 1) := by
        rw [List.drop_eq_getElem_cons hjlt, hx']
      split
      · next hx =>
        exact absurd (hdj ▸ (hx ▸ List.mem_cons_self x (cur.drop (j + 1)))) hp
      · next hx =>
        exact ih cur (j + 1) (fun hm => hp (hdj ▸ List.mem_cons_of_mem x hm))
    · rfl

lemma relocate_last {p : Int} :
    ∀ (B : List Int) (cur : List Int) (j fuel : Nat),
      cur.drop j = B ++ [p] → p ∉ B → cur.length - j ≤ fuel →
      relocate p cur j fuel = cur := by
  intro B
  induction B with
  | nil =>
    intro cur j fuel hd hB hf
    have hlen : cur.length - j = 1 := by
      have := congrArg List.length hd
      simpa [List.length_drop] using this
    have hjlt : j < cur.length := by omega
    have h1 : cur[j] :: cur.drop (j + 1) = [p] := by
      rw [← List.drop_eq_getElem_cons hjlt]
      exact hd
    injection h1 with h1a h1b
    cases fuel with
    | zero => omega
    | succ n =>
      unfold relocate
      split
      · next x hj =>
        have hx : x = cur[j] := by
          rw [List.getElem?_eq_getElem hjlt] at hj
          exact Option.some_injective _ hj.symm
        rw [if_pos (hx.trans h1a)]
        have hcur : cur = cur.take j ++ [p] := by
          conv_lhs => rw [← List.take_append_drop j cur, hd]
          simp
        have e1 : (cur ++ [x]).eraseIdx j = cur := by
          rw [List.eraseIdx_eq_take_drop_succ,
            List.take_append_of_le_length hjlt.le,
            List.drop_append_of_le_length (by omega), h1b, hx, h1a]
          simpa using hcur.symm
        rw [e1]
        exact relocate_of_le (by omega) n
      · rfl
  | cons b B' ih =>
    intro cur j fuel hd hB hf
    have hlen : cur.length - j = B'.length + 2 := by
      have := congrArg List.length hd
      simpa [List.length_drop] using this
    have hjlt : j < cur.length := by omega
    have h1 : cur[j] :: cur.drop (j + 1) = b :: (B' ++ [p]) := by
      rw [← List.drop_eq_getElem_cons hjlt]
      exact hd
    injection h1 with h1a h1b
    cases fuel with
    | zero => omega
    | succ n =>
      unfold relocate
      split
      · next x hj =>
        have hcx : cur[j] = x := by
          rw [List.getElem?_eq_getElem hjlt] at hj
          exact Option.some_injective _ hj
        have hx : x = b := hcx.symm.trans h1a
        rw [if_neg (show ¬ x = p from
          fun h => hB (List.mem_cons.mpr (Or.inl (hx.symm.trans h).symm)))]
        exact ih cur (j + 1) n h1b
          (fun hm => hB (List.mem_cons_of_mem b hm)) (by omega)
      · rfl

end LRUPageReplacement

namespace LRUPageReplacement

lemma drop_append_left {l₁ l₂ : List Int} {j : Nat} (h : l₁.length = j) :
    (l₁ ++ l₂).drop (j + 1) = l₂.drop 1 := by
  subst h
  exact List.drop_append 1

lemma relocate_found {p : Int} :
    ∀ (C : List Int) (cur : List Int) (j fuel : Nat) (B : List Int),
      cur.drop j = C ++ p :: B → p ∉ C → p ∉ B → cur.length - j ≤ fuel →
      relocate p cur j fuel = cur.take j ++ C ++ B ++ [p] := by
  intro C
  induction C with
  | nil =>
    intro cur j fuel B hd hC hB hf
    have hlen : cur.length - j = B.length + 1 := by
      have := congrArg List.length hd
      simpa [List.length_drop] using this
    have hjlt : j < cur.length := by omega
    have hlt : (cur.take j).length = j := by
      rw [List.length_take]
      exact Nat.min_eq_left hjlt.le
    have h1 : cur[j] :: cur.drop (j + 1) = p :: B := by
      rw [← List.drop_eq_getElem_cons hjlt]
      exact hd
    injection h1 with h1a h1b
    cases fuel with
    | zero => omega
    | succ n =>
      unfold relocate
      split
      · next x hj =>
        have hcx : cur[j] = x := by
          rw [List.getElem?_eq_getElem hjlt] at hj
          exact Option.some_injective _ hj
        have hx : x = p := hcx.symm.trans h1a
        rw [if_pos hx]
        have e1 : (cur ++ [x]).eraseIdx j = cur.take j ++ (B ++ [p]) := by
          rw [List.eraseIdx_eq_take_drop_succ,
            List.take_append_of_le_length hjlt.le,
            List.drop_append_of_le_length (by omega), h1b, hx]
        rw [e1]
        cases B with
        | nil =>
          rw [relocate_of_le (by simp [hlt]) n]
          simp
        | cons b B2 =>
          simp only [List.length_cons] at hlen
          have e2 : (cur.take j ++ ((b :: B2) ++ [p])).drop (j + 1) = B2 ++ [p] := by
            rw [drop_append_left hlt]
            simp
          rw [relocate_last B2 (cur.take j ++ ((b :: B2) ++ [p])) (j + 1) n e2
            (fun hm => hB (List.mem_cons_of_mem b hm))
            (by simp [List.length_append, hlt]; omega)]
          simp
      · next hj =>
        exact absurd (List.getElem?_eq_none_iff.mp hj) (by omega)
  | cons c C' ih =>
    intro cur j fuel B hd hC hB hf
    have hlen : cur.length - j = C'.length + B.length + 2 := by
      have := congrArg List.length hd
      simpa [List.length_drop] using this
    have hjlt : j < cur.length := by omega
    have h1 : cur[j] :: cur.drop (j + 1) = c :: (C' ++ p :: B) := by
      rw [← List.drop_eq_getElem_cons hjlt]
      exact hd
    injection h1 with h1a h1b
    cases fuel with
    | zero => omega
    | succ n =>
      unfold relocate
      split
      · next x hj =>
        have hcx : cur[j] = x := by
          rw [List.getElem?_eq_getElem hjlt] at hj
          exact Option.some_injective _ hj
        have hx : x = c := hcx.symm.trans h1a
        rw [if_neg (show ¬ x = p from
          fun h => hC (List.mem_cons.mpr (Or.inl (hx.symm.trans h).symm)))]
        rw [ih cur (j + 1) n B h1b
          (fun hm => hC (List.mem_cons_of_mem c hm)) hB (by omega)]
        rw [List.take_succ, List.getElem?_eq_getElem hjlt, hcx, hx]
        simp
      · next hj =>
        exact absurd (List.getElem?_eq_none_iff.mp hj) (by omega)

lemma relocate_spec {p : Int} {cur : List Int} (hnd : cur.Nodup) (hp : p ∈ cur) :
    relocate p cur 0 cur.length = cur.erase p ++ [p] := by
  obtain ⟨A, B, rfl⟩ := List.append_of_mem hp
  have hA : p ∉ A := fun hpA =>
    (List.disjoint_of_nodup_append hnd) hpA (List.mem_cons_self p B)
  have hB : p ∉ B := by
    have h2 := (List.nodup_append.mp hnd).2.1
    exact (List.nodup_cons.mp h2).1
  rw [relocate_found A (A ++ p :: B) 0 (A ++ p :: B).length B rfl hA hB (by omega)]
  rw [List.erase_append_right _ hA, List.erase_cons_head]
  simp

end LRUPageReplacement

namespace LRUPageReplacement

lemma step_hit {numFrames n : Nat} {cur : List Int} {p : Int} (h : p ∈ cur) :
    step numFrames (cur, n) p = (relocate p cur 0 cur.length, n) := by
  simp [step, AbstractPageReplacement.findInContainer_iff, h]

lemma step_miss {numFrames n : Nat} {cur : List Int} {p : Int} (h : p ∉ cur) :
    step numFrames (cur, n) p =
      ((if cur.length = numFrames then cur.tail else cur) ++ [p], n + 1) := by
  simp [step, AbstractPageReplacement.findInContainer_iff, h]

end LRUPageReplacement

/-- C9: one LRU replay step.  A hit relocates the referenced page to the
tail of the recency queue (the relocation loop of lines 272-286 is
extensionally `cur.erase p ++ [p]` on duplicate-free states) without changing
the set of resident pages or the fault count; a miss with the resident set at
capacity removes the head and appends the new page to the tail, counting one
fault. -/
theorem claim_C9 (numFrames : Nat) (cur : List Int) (n : Nat) (p : Int) :
    (cur.Nodup → p ∈ cur →
      LRUPageReplacement.step numFrames (cur, n) p = (cur.erase p ++ [p], n) ∧
      (LRUPageReplacement.step numFrames (cur, n) p).1.toFinset = cur.toFinset) ∧
    (p ∉ cur → cur.length = numFrames →
      LRUPageReplacement.step numFrames (cur, n) p = (cur.tail ++ [p], n + 1)) := by
  constructor
  · intro hnd hp
    constructor
    · rw [LRUPageReplacement.step_hit hp, LRUPageReplacement.relocate_spec hnd hp]
    · rw [LRUPageReplacement.step_hit hp]
      exact List.toFinset_eq_of_perm _ _ (LRUPageReplacement.relocate_perm p cur.length cur 0)
  · intro hp hlen
    rw [LRUPageReplacement.step_miss hp, if_pos hlen]

/-- C9 (witness): a hit on page 2 in `[1, 2, 3]` and a miss on page 7 at
capacity 3. -/
theorem claim_C9_witness :
    LRUPageReplacement.step 3 ([1, 2, 3], 0) 2 = ([1, 3, 2], 0) ∧
    LRUPageReplacement.step 3 ([1, 2, 3], 0) 7 = ([2, 3, 7], 1) := by
  constructor
  · exact (((claim_C9 3 [1, 2, 3] 0 2).1 (by decide) (by decide)).1).trans (by decide)
  · exact ((claim_C9 3 [1, 2, 3] 0 7).2 (by decide) (by decide)).trans (by decide)

/-! ## Fault-count bounds used for the optimality claim -/

lemma card_insert_eq_one_add_card_erase (X : Finset Int) (r : Int) :
    (insert r X).card = 1 + (X.erase r).card := by
  by_cases h : r ∈ X
  · rw [Finset.insert_eq_self.mpr h, Finset.card_erase_of_mem h]
    have hpos : 0 < X.card := Finset.card_pos.mpr ⟨r, h⟩
    omega
  · rw [Finset.erase_eq_of_not_mem h, Finset.card_insert_of_not_mem h]
    omega

/-- Any demand-paging replay step that only ever keeps old pages or the
requested page, and counts every miss, pays at least one fault per distinct
page of the reference string that is not initially resident. -/
lemma foldl_faults_ge (stepf : List Int × Nat → Int → List Int × Nat)
    (hsub : ∀ cur f r, (stepf (cur, f) r).1.toFinset ⊆ insert r cur.toFinset)
    (hfault : ∀ cur f r, f + (if r ∈ cur then 0 else 1) ≤ (stepf (cur, f) r).2) :
    ∀ (refs cur : List Int) (f : Nat),
      f + (refs.toFinset \ cur.toFinset).card ≤ (refs.foldl stepf (cur, f)).2 := by
  intro refs
  induction refs with
  | nil => intro cur f; simp
  | cons r rest ih =>
    intro cur f
    simp only [List.foldl_cons]
    have h1 := hsub cur f r
    have h2 := hfault cur f r
    rcases hst : stepf (cur, f) r with ⟨cur', f'⟩
    rw [hst] at h1 h2
    have h3 := ih cur' f'
    by_cases hr : r ∈ cur
    · have hrC : r ∈ cur.toFinset := List.mem_toFinset.mpr hr
      rw [List.toFinset_cons, Finset.insert_sdiff_of_mem _ hrC]
      rw [if_pos hr] at h2
      have h5 : rest.toFinset \ cur.toFinset ⊆ rest.toFinset \ cur'.toFinset := by
        have h6 := Finset.sdiff_subset_sdiff (Finset.Subset.refl rest.toFinset) h1
        rw [Finset.sdiff_insert] at h6
        rw [← Finset.erase_eq_of_not_mem
          (show r ∉ rest.toFinset \ cur.toFinset by simp [hrC])]
        exact h6
      have h7 := Finset.card_le_card h5
      simp only at h2
      omega
    · have hrC : r ∉ cur.toFinset := fun hc => hr (List.mem_toFinset.mp hc)
      rw [List.toFinset_cons, Finset.insert_sdiff_of_not_mem _ hrC,
        card_insert_eq_one_add_card_erase]
      rw [if_neg hr] at h2
      have h5 : (rest.toFinset \ cur.toFinset).erase r ⊆
          rest.toFinset \ cur'.toFinset := by
        have h6 := Finset.sdiff_subset_sdiff (Finset.Subset.refl rest.toFinset) h1
        rwa [Finset.sdiff_insert] at h6
      have h7 := Finset.card_le_card h5
      simp only at h2
      omega

lemma evict_append_subset (numFrames : Nat) (cur : List Int) (r : Int) :
    ((if cur.length = numFrames then cur.tail else cur) ++ [r]).toFinset ⊆
      insert r cur.toFinset := by
  intro x hx
  rw [List.mem_toFinset] at hx
  rcases List.mem_append.mp hx with hx1 | hx2
  · apply Finset.mem_insert_of_mem
    rw [List.mem_toFinset]
    split at hx1
    · exact List.mem_of_mem_tail hx1
    · exact hx1
  · rw [List.mem_singleton.mp hx2]
    exact Finset.mem_insert_self r _

lemma fifo_step_subset (numFrames : Nat) (cur : List Int) (f : Nat) (r : Int) :
    ((FIFOPageReplacement.step numFrames (cur, f) r).1).toFinset ⊆
      insert r cur.toFinset := by
  cases hb : AbstractPageReplacement.FindInContainer r cur with
  | true =>
    simp only [FIFOPageReplacement.step, hb, if_true]
    exact Finset.subset_insert r _
  | false =>
    simp only [FIFOPageReplacement.step, hb, Bool.false_eq_true, if_false]
    exact evict_append_subset numFrames cur r

lemma fifo_step_fault (numFrames : Nat) (cur : List Int) (f : Nat) (r : Int) :
    f + (if r ∈ cur then 0 else 1) ≤
      (FIFOPageReplacement.step numFrames (cur, f) r).2 := by
  by_cases hr : r ∈ cur
  · have hb : AbstractPageReplacement.FindInContainer r cur = true :=
      (AbstractPageReplacement.findInContainer_iff r cur).mpr hr
    simp [FIFOPageReplacement.step, hb, hr]
  · have hb : AbstractPageReplacement.FindInContainer r cur = false := by
      cases hb2 : AbstractPageReplacement.FindInContainer r cur
      · rfl
      · exact absurd ((AbstractPageReplacement.findInContainer_iff r cur).mp hb2) hr
    simp [FIFOPageReplacement.step, hb, hr]

lemma lru_step_subset (numFrames : Nat) (cur : List Int) (f : Nat) (r : Int) :
    ((LRUPageReplacement.step numFrames (cur, f) r).1).toFinset ⊆
      insert r cur.toFinset := by
  by_cases hr : r ∈ cur
  · rw [LRUPageReplacement.step_hit hr]
    have heq := List.toFinset_eq_of_perm _ _
      (LRUPageReplacement.relocate_perm r cur.length cur 0)
    intro x hx
    exact Finset.mem_insert_of_mem (heq ▸ hx)
  · rw [LRUPageReplacement.step_miss hr]
    exact evict_append_subset numFrames cur r

lemma lru_step_fault (numFrames : Nat) (cur : List Int) (f : Nat) (r : Int) :
    f + (if r ∈ cur then 0 else 1) ≤
      (LRUPageReplacement.step numFrames (cur, f) r).2 := by
  by_cases hr : r ∈ cur
  · rw [LRUPageReplacement.step_hit hr]
    simp [hr]
  · rw [LRUPageReplacement.step_miss hr]
    simp [hr]

/-- With every page id in `[0, num_pages)` and a duplicate-free resident set,
the eviction branch of OPT can never fire: a resident set of size
`num_pages_` would already contain every page, so the request cannot miss. -/
lemma opt_branch1_false {numPages : Nat} {cur : List Int} {r : Int}
    (hnd : cur.Nodup) (hcur : ∀ x ∈ cur, 0 ≤ x ∧ x < (numPages : Int))
    (hr : 0 ≤ r ∧ r < (numPages : Int)) :
    ¬ (cur.length = numPages ∧
        ¬ AbstractPageReplacement.FindInContainer r cur = true) := by
  rintro ⟨hlen, hfind⟩
  have hsub : cur.toFinset ⊆ Finset.Ico (0 : Int) (numPages : Int) := by
    intro x hx
    rw [List.mem_toFinset] at hx
    exact Finset.mem_Ico.mpr (hcur x hx)
  have hcard : (Finset.Ico (0 : Int) (numPages : Int)).card ≤ cur.toFinset.card := by
    rw [List.toFinset_card_of_nodup hnd, hlen, Int.card_Ico]
    simp
  have heq := Finset.eq_of_subset_of_card_le hsub hcard
  have hrmem : r ∈ cur.toFinset := by
    rw [heq]
    exact Finset.mem_Ico.mpr hr
  exact hfind
    ((AbstractPageReplacement.findInContainer_iff r cur).mpr (List.mem_toFinset.mp hrmem))

/-- Under the data model's well-formedness (all page ids in
`[0, num_pages)`), OPT never evicts, so its fault count is bounded by the
number of distinct pages not yet resident. -/
lemma opt_le {numPages numFrames : Nat} :
    ∀ (refs cur : List Int) (f : Nat), cur.Nodup →
      (∀ x ∈ cur, 0 ≤ x ∧ x < (numPages : Int)) →
      (∀ x ∈ refs, 0 ≤ x ∧ x < (numPages : Int)) →
      (OPTPageReplacement.optLoop numPages numFrames cur refs f).2 ≤
        f + (refs.toFinset \ cur.toFinset).card := by
  intro refs
  induction refs with
  | nil => intro cur f _ _ _; simp [OPTPageReplacement.optLoop]
  | cons r rest ih =>
    intro cur f hnd hcur hrefs
    have hr := hrefs r (List.mem_cons_self r rest)
    have hrest : ∀ x ∈ rest, 0 ≤ x ∧ x < (numPages : Int) :=
      fun x hx => hrefs x (List.mem_cons_of_mem r hx)
    have hb1 := opt_branch1_false hnd hcur hr
    simp only [OPTPageReplacement.optLoop, OPTPageReplacement.step, if_neg hb1]
    by_cases h2 : cur.length ≠ numFrames ∧
        ¬ AbstractPageReplacement.FindInContainer r cur = true
    · rw [if_pos h2]
      have hrcur : r ∉ cur :=
        fun hm => h2.2 ((AbstractPageReplacement.findInContainer_iff r cur).mpr hm)
      have hnd' : (cur ++ [r]).Nodup := by
        rw [List.nodup_append]
        exact ⟨hnd, List.nodup_singleton r,
          fun a ha hb => hrcur ((List.mem_singleton.mp hb) ▸ ha)⟩
      have hcur' : ∀ x ∈ cur ++ [r], 0 ≤ x ∧ x < (numPages : Int) := by
        intro x hx
        rcases List.mem_append.mp hx with hx1 | hx2
        · exact hcur x hx1
        · exact (List.mem_singleton.mp hx2) ▸ hr
      have h3 := ih (cur ++ [r]) (f + 1) hnd' hcur' hrest
      have hto : (cur ++ [r]).toFinset = insert r cur.toFinset := by
        ext x
        simp [or_comm]
      rw [hto, Finset.sdiff_insert] at h3
      have hrC : r ∉ cur.toFinset := fun hc => hrcur (List.mem_toFinset.mp hc)
      rw [List.toFinset_cons, Finset.insert_sdiff_of_not_mem _ hrC,
        card_insert_eq_one_add_card_erase]
      dsimp only
      omega
    · rw [if_neg h2]
      have h3 := ih cur f hnd hcur hrest
      have hsub : rest.toFinset \ cur.toFinset ⊆
          (r :: rest).toFinset \ cur.toFinset := by
        rw [List.toFinset_cons]
        exact Finset.sdiff_subset_sdiff (Finset.subset_insert r _)
          (Finset.Subset.refl _)
      have h7 := Finset.card_le_card hsub
      dsimp only
      omega

/-- C1 (amended): for every reference string whose page ids all lie in
`[0, num_pages)` — the data model's well-formedness condition — and every
capacity `num_frames = c ≥ 1`, OPT's replay fault count is at most FIFO's and
at most LRU's on the same string with the same `num_frames`.  (Under
well-formedness OPT's eviction branch never fires, so it faults at most once
per distinct page, while every demand policy faults at least once per
distinct page.) -/
theorem claim_C1_amended (refs : List Int) (numPages numFrames : Nat)
    (_hF : 1 ≤ numFrames)
    (hwf : ∀ x ∈ refs, 0 ≤ x ∧ x < (numPages : Int)) :
    OPTPageReplacement.CalculatePageFaults refs numPages numFrames ≤
      FIFOPageReplacement.CalculatePageFaults refs numFrames ∧
    OPTPageReplacement.CalculatePageFaults refs numPages numFrames ≤
      LRUPageReplacement.CalculatePageFaults refs numFrames := by
  have hopt : OPTPageReplacement.CalculatePageFaults refs numPages numFrames ≤
      refs.toFinset.card := by
    have h := @opt_le numPages numFrames refs [] 0 List.nodup_nil (by simp) hwf
    simpa [OPTPageReplacement.CalculatePageFaults, Finset.sdiff_empty] using h
  have hfifo : refs.toFinset.card ≤
      FIFOPageReplacement.CalculatePageFaults refs numFrames := by
    have h := foldl_faults_ge (FIFOPageReplacement.step numFrames)
      (fun cur f r => fifo_step_subset numFrames cur f r)
      (fun cur f r => fifo_step_fault numFrames cur f r) refs [] 0
    simpa [FIFOPageReplacement.CalculatePageFaults, Finset.sdiff_empty] using h
  have hlru : refs.toFinset.card ≤
      LRUPageReplacement.CalculatePageFaults refs numFrames := by
    have h := foldl_faults_ge (LRUPageReplacement.step numFrames)
      (fun cur f r => lru_step_subset numFrames cur f r)
      (fun cur f r => lru_step_fault numFrames cur f r) refs [] 0
    simpa [LRUPageReplacement.CalculatePageFaults, Finset.sdiff_empty] using h
  exact ⟨hopt.trans hfifo, hopt.trans hlru⟩

/-- C1 (witness for the amended theorem): the well-formed string
`[0, 1, 0, 2]` over 3 pages with 1 frame. -/
theorem claim_C1_amended_witness :
    OPTPageReplacement.CalculatePageFaults [0, 1, 0, 2] 3 1 ≤
      FIFOPageReplacement.CalculatePageFaults [0, 1, 0, 2] 1 ∧
    OPTPageReplacement.CalculatePageFaults [0, 1, 0, 2] 3 1 ≤
      LRUPageReplacement.CalculatePageFaults [0, 1, 0, 2] 1 :=
  claim_C1_amended [0, 1, 0, 2] 3 1 (by decide) (by decide)
/-- Under the data model's well-formedness, OPT's replay does not depend on
`num_pages` at all: the only branch consulting it can never fire. -/
lemma opt_loop_eq {numPagesA numPagesB numFrames : Nat} :
    ∀ (refs cur : List Int) (f : Nat), cur.Nodup →
      (∀ x ∈ cur, 0 ≤ x ∧ x < (numPagesA : Int)) →
      (∀ x ∈ cur, 0 ≤ x ∧ x < (numPagesB : Int)) →
      (∀ x ∈ refs, 0 ≤ x ∧ x < (numPagesA : Int)) →
      (∀ x ∈ refs, 0 ≤ x ∧ x < (numPagesB : Int)) →
      OPTPageReplacement.optLoop numPagesA numFrames cur refs f =
        OPTPageReplacement.optLoop numPagesB numFrames cur refs f := by
  intro refs
  induction refs with
  | nil => intro cur f _ _ _ _ _; rfl
  | cons r rest ih =>
    intro cur f hnd hcA hcB hrA hrB
    have hbA := opt_branch1_false hnd hcA (hrA r (List.mem_cons_self r rest))
    have hbB := opt_branch1_false hnd hcB (hrB r (List.mem_cons_self r rest))
    have hrestA : ∀ x ∈ rest, 0 ≤ x ∧ x < (numPagesA : Int) :=
      fun x hx => hrA x (List.mem_cons_of_mem r hx)
    have hrestB : ∀ x ∈ rest, 0 ≤ x ∧ x < (numPagesB : Int) :=
      fun x hx => hrB x (List.mem_cons_of_mem r hx)
    simp only [OPTPageReplacement.optLoop, OPTPageReplacement.step,
      if_neg hbA, if_neg hbB]
    by_cases h2 : cur.length ≠ numFrames ∧
        ¬ AbstractPageReplacement.FindInContainer r cur = true
    · rw [if_pos h2]
      dsimp only
      have hrcur : r ∉ cur :=
        fun hm => h2.2 ((AbstractPageReplacement.findInContainer_iff r cur).mpr hm)
      have hnd' : (cur ++ [r]).Nodup := by
        rw [List.nodup_append]
        exact ⟨hnd, List.nodup_singleton r,
          fun a ha hb => hrcur ((List.mem_singleton.mp hb) ▸ ha)⟩
      have hcA' : ∀ x ∈ cur ++ [r], 0 ≤ x ∧ x < (numPagesA : Int) := by
        intro x hx
        rcases List.mem_append.mp hx with hx1 | hx2
        · exact hcA x hx1
        · exact (List.mem_singleton.mp hx2) ▸ hrA r (List.mem_cons_self r rest)
      have hcB' : ∀ x ∈ cur ++ [r], 0 ≤ x ∧ x < (numPagesB : Int) := by
        intro x hx
        rcases List.mem_append.mp hx with hx1 | hx2
        · exact hcB x hx1
        · exact (List.mem_singleton.mp hx2) ▸ hrB r (List.mem_cons_self r rest)
      exact ih (cur ++ [r]) (f + 1) hnd' hcA' hcB' hrestA hrestB
    · rw [if_neg h2]
      dsimp only
      exact ih cur f hnd hcA hcB hrestA hrestB

/-- C3 (counterexample): with `num_pages = 5` — the smallest address-space
size the data model allows for a string containing page id 4 — and
`num_frames = 3`, OPT replays `[1,2,3,1,2,4,1,2,3]` with 3 faults, not the
claimed 5: the misses at capacity are silently ignored. -/
theorem claim_C3_counterexample :
    OPTPageReplacement.CalculatePageFaults [1, 2, 3, 1, 2, 4, 1, 2, 3] 5 3 = 3 ∧
    OPTPageReplacement.CalculatePageFaults [1, 2, 3, 1, 2, 4, 1, 2, 3] 5 3 ≠ 5 := by
  decide

/-- C3 (amended): on `[1,2,3,1,2,4,1,2,3]` with `num_frames = 3`, FIFO
faults 7 times and LRU 5 times, while OPT faults 3 times for every
`num_pages` consistent with the data model (`num_pages ≥ 5`, so that every
page id lies in `[0, num_pages)`): its eviction branch never fires and
misses at `num_frames` capacity are not counted.  (The claimed OPT = 5
arises only at `num_pages = num_frames = 3`, outside the data model for
this string.) -/
theorem claim_C3_amended (numPages : Nat) (h5 : 5 ≤ numPages) :
    FIFOPageReplacement.CalculatePageFaults [1, 2, 3, 1, 2, 4, 1, 2, 3] 3 = 7 ∧
    LRUPageReplacement.CalculatePageFaults [1, 2, 3, 1, 2, 4, 1, 2, 3] 3 = 5 ∧
    OPTPageReplacement.CalculatePageFaults [1, 2, 3, 1, 2, 4, 1, 2, 3] numPages 3 = 3 := by
  refine ⟨rfl, rfl, ?_⟩
  have hall : ∀ x ∈ ([1, 2, 3, 1, 2, 4, 1, 2, 3] : List Int),
      0 ≤ x ∧ x < (5 : Int) := by decide
  have h5c : (5 : Int) ≤ (numPages : Int) := by exact_mod_cast h5
  have heq := @opt_loop_eq numPages 5 3 [1, 2, 3, 1, 2, 4, 1, 2, 3] [] 0
    List.nodup_nil (by simp) (by simp)
    (fun x hx => ⟨(hall x hx).1, lt_of_lt_of_le (hall x hx).2 h5c⟩)
    hall
  unfold OPTPageReplacement.CalculatePageFaults
  rw [heq]
  decide

/-- C3 (witness for the amended theorem): `num_pages = 9`, the UI default. -/
theorem claim_C3_amended_witness :
    FIFOPageReplacement.CalculatePageFaults [1, 2, 3, 1, 2, 4, 1, 2, 3] 3 = 7 ∧
    LRUPageReplacement.CalculatePageFaults [1, 2, 3, 1, 2, 4, 1, 2, 3] 3 = 5 ∧
    OPTPageReplacement.CalculatePageFaults [1, 2, 3, 1, 2, 4, 1, 2, 3] 9 3 = 3 :=
  claim_C3_amended 9 (by decide)
